import Mathlib

/-!
A verification development for a small translator from the eight-symbol
tape-machine language ("brainfuck") to an LLVM-style program
representation.  The source program (src/bf_compiler.py) has two parts:

* `parse` consumes a shared character iterator, appending every
  non-bracket character to the current list, recursing into a fresh list
  on an opening bracket, and stopping on a closing bracket;
* `bf_to_ir` allocates the 30,000-byte tape and the 16-bit index
  register, lowers every parsed node to LLVM instructions, and finally
  returns 0.

The embedding below mirrors those two functions.  The parser carries an
explicit bound on its recursion (always instantiated with the length of
the input, which is sufficient because every call consumes at least one
character).  The code generator produces a list of emitted operations
(`Op`), one per builder sequence of the source, and the operations are
given an executable small-step semantics (`exec`) over the machine state
(tape, index register, pending input, produced output), with machine
integers modelled as natural-number bit patterns reduced modulo 2^8,
2^16 or 2^32 at exactly the points where the emitted LLVM code wraps.
-/

/-- A node of the syntax tree produced by the parser: either a single
non-bracket character kept verbatim (the source appends the raw
character, whether or not it is one of the six primitive symbols), or a
bracketed loop holding the sub-sequence parsed for its body. -/
inductive Ast where
  | prim (c : Char)
  | loop (body : List Ast)

/-- The parser (`parse` in the source).  The source consumes a shared
character iterator: a plain character is appended to the current list, an
opening bracket recursively parses a loop body from the same iterator,
and a closing bracket stops the current level, handing the unconsumed
remainder back.  The first argument bounds the recursion; a bound of the
input length (used by `parse`) is always sufficient, and `parseF_fuel`
shows that all sufficient bounds agree.  The result is the parsed
sequence together with the part of the input left unconsumed. -/
def parseF : Nat → List Char → List Ast × List Char
  | 0, s => ([], s)
  | _ + 1, [] => ([], [])
  | f + 1, c :: rest =>
    if c = '[' then
      (Ast.loop (parseF f rest).1 :: (parseF f (parseF f rest).2).1,
        (parseF f (parseF f rest).2).2)
    else if c = ']' then
      ([], rest)
    else
      (Ast.prim c :: (parseF f rest).1, (parseF f rest).2)

/-- Top-level entry of the parser, as called by `bf_to_ir`: parse the
whole source and keep the produced tree, discarding whatever part of the
input the top-level call did not consume. -/
def parse (s : List Char) : List Ast := (parseF s.length s).1

/-- Sources whose loop markers are balanced: the empty source, a
non-bracket character followed by a balanced source, or a complete
bracketed group with balanced interior followed by a balanced source. -/
inductive BalancedSrc : List Char → Prop where
  | nil : BalancedSrc []
  | prim {c : Char} {p : List Char} :
      c ≠ '[' → c ≠ ']' → BalancedSrc p → BalancedSrc (c :: p)
  | brack {b p : List Char} :
      BalancedSrc b → BalancedSrc p → BalancedSrc ('[' :: b ++ ']' :: p)

/-- The parser only consumes input: the unconsumed remainder is never
longer than what was fed in. -/
theorem parseF_rest_le (f : Nat) : ∀ s : List Char, (parseF f s).2.length ≤ s.length := by
  induction f with
  | zero => intro s; simp [parseF]
  | succ f ih =>
    intro s
    cases s with
    | nil => simp [parseF]
    | cons c rest =>
      by_cases h1 : c = '['
      · have hA := ih rest
        have hB := ih (parseF f rest).2
        simp only [parseF, h1, if_pos, List.length_cons]
        omega
      · by_cases h2 : c = ']'
        · simp [parseF, h1, h2]
        · have hA := ih rest
          simp only [parseF, h1, h2, if_false, List.length_cons]
          omega

/-- Any recursion bound at least the length of the input gives the same
parse as the bound used by `parse`. -/
theorem parseF_fuel (f : Nat) : ∀ s : List Char, s.length ≤ f → parseF f s = parseF s.length s := by
  induction f using Nat.strong_induction_on with
  | _ f ih =>
    intro s hs
    cases s with
    | nil =>
      cases f with
      | zero => rfl
      | succ f => simp [parseF]
    | cons c rest =>
      cases f with
      | zero => simp at hs
      | succ f =>
        have hrest : rest.length ≤ f := by simpa using hs
        have hfl : f < f + 1 := Nat.lt_succ_self f
        by_cases h1 : c = '['
        · have e1 : parseF f rest = parseF rest.length rest := ih f hfl rest hrest
          have hr1 : (parseF rest.length rest).2.length ≤ rest.length :=
            parseF_rest_le rest.length rest
          have e2 : parseF f (parseF rest.length rest).2 =
              parseF (parseF rest.length rest).2.length (parseF rest.length rest).2 :=
            ih f hfl _ (le_trans hr1 hrest)
          have e3 : parseF rest.length (parseF rest.length rest).2 =
              parseF (parseF rest.length rest).2.length (parseF rest.length rest).2 :=
            ih rest.length (by omega) _ hr1
          simp only [parseF, h1, if_pos, List.length_cons, e1, e2, e3]
        · by_cases h2 : c = ']'
          · simp [parseF, h1, h2]
          · have e1 : parseF f rest = parseF rest.length rest := ih f hfl rest hrest
            simp only [parseF, h1, h2, if_false, List.length_cons, e1]

/-- The parse of a source, recomputed at any sufficient recursion bound. -/
theorem parse_eq_parseF (s : List Char) (f : Nat) (h : s.length ≤ f) :
    parse s = (parseF f s).1 :=
  (congrArg Prod.fst (parseF_fuel f s h)).symm

/-- Parsing a non-bracket character cons: the character becomes a leaf. -/
theorem parse_cons_prim {c : Char} (h1 : c ≠ '[') (h2 : c ≠ ']') (p : List Char) :
    parse (c :: p) = Ast.prim c :: parse p := by
  simp [parse, parseF, h1, h2]

/-- Running the parser on a balanced prefix followed by anything: the
balanced prefix is consumed in full and contributes its own parse, after
which consumption continues on the remainder exactly as if it had been
fed alone. -/
theorem parseF_append {p : List Char} (hp : BalancedSrc p) :
    ∀ (q : List Char) (f : Nat), (p ++ q).length ≤ f →
      parseF f (p ++ q) = (parse p ++ (parseF q.length q).1, (parseF q.length q).2) := by
  induction hp with
  | nil =>
    intro q f hf
    have : parseF f q = parseF q.length q := parseF_fuel f q (by simpa using hf)
    simp [parse, parseF, this]
  | @prim c p hc1 hc2 hp ih =>
    intro q f hf
    cases f with
    | zero => simp at hf
    | succ f =>
      have hpq : (p ++ q).length ≤ f := by simp at hf ⊢; omega
      have e1 := ih q f hpq
      have step : parseF (f + 1) (c :: (p ++ q)) =
          (Ast.prim c :: (parseF f (p ++ q)).1, (parseF f (p ++ q)).2) := by
        simp [parseF, hc1, hc2]
      have : (c :: p) ++ q = c :: (p ++ q) := by simp
      rw [this, step, e1, parse_cons_prim hc1 hc2 p]
      simp
  | @brack b p hb hp ihb ihp =>
    have key : ∀ (q : List Char) (f : Nat), (b ++ ']' :: (p ++ q)).length ≤ f →
        parseF (f + 1) ('[' :: (b ++ ']' :: (p ++ q))) =
          (Ast.loop (parse b) :: (parse p ++ (parseF q.length q).1),
            (parseF q.length q).2) := by
      intro q f hf2
      have e1 : parseF f (b ++ ']' :: (p ++ q)) = (parse b, p ++ q) := by
        have h := ihb (']' :: (p ++ q)) f (by simpa using hf2)
        have eclose : parseF (']' :: (p ++ q)).length (']' :: (p ++ q)) = ([], p ++ q) := by
          simp [parseF]
        rw [eclose] at h
        simpa using h
      have e2 : parseF f (p ++ q) = (parse p ++ (parseF q.length q).1, (parseF q.length q).2) :=
        ihp q f (by simp at hf2 ⊢; omega)
      have step : parseF (f + 1) ('[' :: (b ++ ']' :: (p ++ q))) =
          (Ast.loop (parseF f (b ++ ']' :: (p ++ q))).1 ::
              (parseF f (parseF f (b ++ ']' :: (p ++ q))).2).1,
            (parseF f (parseF f (b ++ ']' :: (p ++ q))).2).2) := by
        simp [parseF]
      rw [step, e1]
      simp [e2]
    intro q f hf
    have hshape : ('[' :: b ++ ']' :: p) ++ q = '[' :: (b ++ ']' :: (p ++ q)) := by simp
    cases f with
    | zero => simp at hf
    | succ f =>
      have hbound : (b ++ ']' :: (p ++ q)).length ≤ f := by simp at hf ⊢; omega
      have hP : parse ('[' :: b ++ ']' :: p) = Ast.loop (parse b) :: parse p := by
        have h0 := key [] (b ++ ']' :: (p ++ [])).length le_rfl
        simp only [List.append_nil] at h0
        have hlen : ('[' :: b ++ ']' :: p).length ≤ (b ++ ']' :: p).length + 1 := by
          simp
        rw [parse_eq_parseF ('[' :: b ++ ']' :: p) ((b ++ ']' :: p).length + 1) hlen]
        have hform : ('[' : Char) :: b ++ ']' :: p = '[' :: (b ++ ']' :: p) := by simp
        rw [hform, h0]
        simp [parse, parseF]
      rw [hshape, key q f hbound, hP]
      simp

/-- Parsing a balanced prefix followed by any suffix yields the parse of
the prefix followed by the parse of the suffix. -/
theorem parse_append {p : List Char} (hp : BalancedSrc p) (q : List Char) :
    parse (p ++ q) = parse p ++ parse q := by
  have := parseF_append hp q (p ++ q).length le_rfl
  simp only [parse, this]

/-- Parsing one complete bracketed group alone: a single loop node whose
body is the parse of the interior. -/
theorem parse_group {b : List Char} (hb : BalancedSrc b) :
    parse ('[' :: b ++ [']']) = [Ast.loop (parse b)] := by
  have e1 : parseF (b.length + 1) (b ++ [']']) = (parse b, []) := by
    have h := parseF_append hb [']'] (b.length + 1) (by simp)
    have eclose : parseF ([']'] : List Char).length [']'] = ([], []) := by simp [parseF]
    rw [eclose] at h
    simpa using h
  have hlen : ('[' :: b ++ [']']).length ≤ b.length + 1 + 1 := by simp
  rw [parse_eq_parseF _ (b.length + 1 + 1) hlen]
  have hform : ('[' : Char) :: b ++ [']'] = '[' :: (b ++ [']']) := by simp
  rw [hform]
  have step : parseF (b.length + 1 + 1) ('[' :: (b ++ [']'])) =
      (Ast.loop (parseF (b.length + 1) (b ++ [']'])).1 ::
          (parseF (b.length + 1) (parseF (b.length + 1) (b ++ [']'])).2).1,
        (parseF (b.length + 1) (parseF (b.length + 1) (b ++ [']'])).2).2) := by
    simp [parseF]
  rw [step, e1]
  simp [parseF]

/-- Parsing a complete bracketed group followed by anything: the group
becomes one loop node, then parsing continues on the rest. -/
theorem parse_brack {b : List Char} (hb : BalancedSrc b) (p : List Char) :
    parse ('[' :: b ++ ']' :: p) = Ast.loop (parse b) :: parse p := by
  have hgb : BalancedSrc ('[' :: b ++ [']']) := BalancedSrc.brack hb BalancedSrc.nil
  have hshape : ('[' : Char) :: b ++ ']' :: p = ('[' :: b ++ [']']) ++ p := by simp
  rw [hshape, parse_append hgb p, parse_group hb]
  simp

/-- The sentinel value the character-input primitive returns at end of
input: C `getchar` returns `EOF = -1`, whose 32-bit pattern is
4294967295; the emitted `icmp eq` compares bit patterns. -/
def eofSentinel : Nat := 4294967295

/-- The 32-bit value produced by a call to the input primitive: the next
pending byte, or the end-of-input sentinel when the stream is empty. -/
def getcharVal (input : List Nat) : Nat :=
  match input with
  | [] => eofSentinel
  | b :: _ => b % 4294967296

/-- Signed reading of an 8-bit pattern (assumes the argument is already
reduced below 256). -/
def toSigned8 (n : Nat) : Int := if n < 128 then (n : Int) else (n : Int) - 256

/-- The `sadd_with_overflow` intrinsic on 8-bit patterns: the wrapped
sum together with the signed-overflow flag.  The source extracts only
element 0 (the wrapped result) and discards the flag. -/
def sadd_with_overflow8 (a b : Nat) : Nat × Bool :=
  ((a + b) % 256, toSigned8 (a % 256) + toSigned8 (b % 256) != toSigned8 ((a + b) % 256))

/-- The `ssub_with_overflow` intrinsic on 8-bit patterns: the wrapped
difference together with the signed-overflow flag; only element 0 is
used by the source. -/
def ssub_with_overflow8 (a b : Nat) : Nat × Bool :=
  ((a + 256 - b % 256) % 256,
    toSigned8 (a % 256) - toSigned8 (b % 256) != toSigned8 ((a + 256 - b % 256) % 256))

/-- Signed reading of a 16-bit pattern (assumes the argument is already
reduced below 65536). -/
def toSigned16 (n : Nat) : Int := if n < 32768 then (n : Int) else (n : Int) - 65536

/-- Bit pattern of a signed 16-bit value. -/
def ofSigned16 (z : Int) : Nat := (z % 65536).toNat

/-- The LLVM `srem` instruction on 16-bit patterns: signed truncating
remainder (remainder takes the sign of the dividend), then back to a bit
pattern.  `Int.tmod` is exactly C-style truncating remainder. -/
def srem16 (a b : Nat) : Nat := ofSigned16 (Int.tmod (toSigned16 a) (toSigned16 b))

/-- New index-register pattern after `>`: add 1 (the source attaches
`nuw`/`nsw` flags, so we model the concrete two's-complement result,
which never wraps from a reachable index), `srem` by 30000, and replace
a result reading -1 by 29999 (the source compares against an `i32 -1`
constant, but llvmlite prints the comparison at the type of its first
operand, so the parsed module compares 16-bit patterns). -/
def moveRightIndex (i : Nat) : Nat :=
  if toSigned16 (srem16 ((i + 1) % 65536) 30000) = -1 then 29999
  else srem16 ((i + 1) % 65536) 30000

/-- New index-register pattern after `<`: subtract 1 (two's-complement
wrap at 0 gives the pattern 65535, read as -1), `srem` by 30000, and
replace a result reading -1 by 29999. -/
def moveLeftIndex (i : Nat) : Nat :=
  if toSigned16 (srem16 ((i + 65536 - 1) % 65536) 30000) = -1 then 29999
  else srem16 ((i + 65536 - 1) % 65536) 30000

/-- One emitted operation, one constructor per builder sequence of the
source code generator: the two `alloca`s and the two initializing calls
of the setup prologue, the six primitive-instruction lowerings, the loop
construct (its body the recursively lowered inner operations; the
emitted blocks are `preloop` = test, `body`, `postloop` = continuation),
and the final `ret`. -/
inductive Op where
  | allocaIndex
  | initIndex
  | allocaTape
  | bzeroTape
  | add1
  | sub1
  | right1
  | left1
  | dot
  | comma
  | loop (body : List Op)
  | ret (v : Nat)

mutual

/-- Lowering of one parsed node (`compile_instruction` in the source):
a list node becomes a loop construct over its lowered body; each of the
six primitive characters becomes its operation; any other character
falls through every branch and emits nothing. -/
def compileItem : Ast → List Op
  | Ast.prim c =>
    if c = '+' then [Op.add1]
    else if c = '-' then [Op.sub1]
    else if c = '>' then [Op.right1]
    else if c = '<' then [Op.left1]
    else if c = '.' then [Op.dot]
    else if c = ',' then [Op.comma]
    else []
  | Ast.loop body => [Op.loop (compileList body)]

/-- Lowering of a sequence of parsed nodes, in order. -/
def compileList : List Ast → List Op
  | [] => []
  | a :: rest => compileItem a ++ compileList rest

end

/-- The code generator (`bf_to_ir` in the source): parse, emit the setup
prologue (alloca the 16-bit index register, store 0 to it, alloca the
30,000-byte tape, bzero it — source lines 53-59), lower every top-level
node, then `ret i32 0`. -/
def bfToIr (bf : List Char) : List Op :=
  [Op.allocaIndex, Op.initIndex, Op.allocaTape, Op.bzeroTape] ++
    compileList (parse bf) ++ [Op.ret 0]

/-- The machine state of the generated program: the tape bytes, the
index-register pattern, the pending input stream, the output produced so
far, and the value given to `ret` once executed. -/
structure MState where
  tape : List Nat
  index : Nat
  input : List Nat
  output : List Nat
  retVal : Option Nat

/-- Executable semantics of an emitted operation sequence.  The first
`Nat` is the byte pattern an `alloca` leaves in uninitialized memory
(arbitrary: the generated program `bzero`s the tape before any use); the
second is a step bound (`none` on exhaustion, so any run that yields
`some` is a genuine finite execution).  Loads and stores through the
tape location check the index against the tape length: an out-of-range
access is LLVM undefined behaviour and maps to `none`.  The loop
construct mirrors the emitted control flow: entry always branches to the
test (`preloop`), which loads the current cell and either exits to the
continuation (`postloop`) when it is zero or runs the body and branches
back to the test. -/
def exec (u : Nat) : Nat → List Op → MState → Option MState
  | _, [], s => some s
  | 0, _ :: _, _ => none
  | f + 1, op :: rest, s =>
    match op with
    | Op.allocaIndex => exec u f rest s
    | Op.initIndex => exec u f rest { s with index := 0 }
    | Op.allocaTape => exec u f rest { s with tape := List.replicate 30000 u }
    | Op.bzeroTape => exec u f rest { s with tape := List.replicate 30000 0 }
    | Op.add1 =>
      match s.tape[s.index]? with
      | none => none
      | some v => exec u f rest { s with tape := s.tape.set s.index (sadd_with_overflow8 v 1).1 }
    | Op.sub1 =>
      match s.tape[s.index]? with
      | none => none
      | some v => exec u f rest { s with tape := s.tape.set s.index (ssub_with_overflow8 v 1).1 }
    | Op.right1 => exec u f rest { s with index := moveRightIndex s.index }
    | Op.left1 => exec u f rest { s with index := moveLeftIndex s.index }
    | Op.dot =>
      match s.tape[s.index]? with
      | none => none
      | some v => exec u f rest { s with output := s.output ++ [v] }
    | Op.comma =>
      if s.index < s.tape.length then
        if getcharVal s.input = eofSentinel then
          exec u f rest { s with input := s.input.drop 1, tape := s.tape.set s.index 0 }
        else
          exec u f rest
            { s with input := s.input.drop 1,
                     tape := s.tape.set s.index (getcharVal s.input % 256) }
      else none
    | Op.ret v => exec u f rest { s with retVal := some v }
    | Op.loop body =>
      match s.tape[s.index]? with
      | none => none
      | some v =>
        if v = 0 then exec u f rest s
        else
          match exec u f body s with
          | none => none
          | some s2 => exec u f (Op.loop body :: rest) s2
  termination_by structural f _ _ => f

/-- The state on entry of the generated program, before the prologue has
allocated anything: the tape does not exist yet. -/
def startState (inputL : List Nat) : MState :=
  { tape := [], index := 0, input := inputL, output := [], retVal := none }

/-- Run the whole generated program for a source and an input stream:
the exit status and the output bytes, or `none` if the step bound ran
out or undefined behaviour was reached. -/
def runBf (u fuel : Nat) (bf : List Char) (inputL : List Nat) : Option (Nat × List Nat) :=
  match exec u fuel (bfToIr bf) (startState inputL) with
  | none => none
  | some s =>
    match s.retVal with
    | none => none
    | some code => some (code, s.output)


mutual

/-- Resource and return accounting of one emitted operation, recursing
into loop bodies: (index-register allocations, tape allocations, `ret`s
whose returned value is not 0). -/
def opCounts : Op → Nat × Nat × Nat
  | Op.allocaIndex => (1, 0, 0)
  | Op.allocaTape => (0, 1, 0)
  | Op.ret v => (0, 0, if v = 0 then 0 else 1)
  | Op.loop body => opCountsL body
  | _ => (0, 0, 0)

/-- Accounting over an operation sequence. -/
def opCountsL : List Op → Nat × Nat × Nat
  | [] => (0, 0, 0)
  | o :: rest => opCounts o + opCountsL rest

end

theorem opCountsL_append (x y : List Op) :
    opCountsL (x ++ y) = opCountsL x + opCountsL y := by
  induction x with
  | nil => simp [opCountsL]
  | cons o r ih => simp [opCountsL, ih, add_assoc]

mutual

/-- Lowering one parsed node emits no allocation and no nonzero return. -/
theorem opCounts_compileItem (a : Ast) : opCountsL (compileItem a) = (0, 0, 0) := by
  cases a with
  | prim c =>
    simp only [compileItem]
    split_ifs <;> rfl
  | loop body =>
    show opCountsL [Op.loop (compileList body)] = (0, 0, 0)
    show opCounts (Op.loop (compileList body)) + opCountsL [] = (0, 0, 0)
    rw [show opCounts (Op.loop (compileList body)) = opCountsL (compileList body) from rfl,
      opCounts_compileList body]
    rfl

/-- Lowering a sequence of parsed nodes emits no allocation and no
nonzero return. -/
theorem opCounts_compileList (l : List Ast) : opCountsL (compileList l) = (0, 0, 0) := by
  cases l with
  | nil => rfl
  | cons a rest =>
    show opCountsL (compileItem a ++ compileList rest) = (0, 0, 0)
    rw [opCountsL_append, opCounts_compileItem a, opCounts_compileList rest]
    rfl

end

mutual

/-- Number of leaves of one tree node (loops contribute the leaves of
their body). -/
def leafAst : Ast → Nat
  | Ast.prim _ => 1
  | Ast.loop body => leafList body

/-- Total number of leaves of a parsed sequence. -/
def leafList : List Ast → Nat
  | [] => 0
  | a :: rest => leafAst a + leafList rest

end

/-- Number of non-bracket characters of a source. -/
def countNonBracket (s : List Char) : Nat :=
  (s.filter fun c => !(c == '[') && !(c == ']')).length

/-- Number of occurrences of the six primitive characters in a source. -/
def countPrimChars (s : List Char) : Nat :=
  (s.filter fun c =>
    c == '+' || c == '-' || c == '<' || c == '>' || c == '.' || c == ',').length

/-- On a balanced source the parser produces one leaf per non-bracket
character (primitive or not). -/
theorem leafList_parse {p : List Char} (hp : BalancedSrc p) :
    leafList (parse p) = countNonBracket p := by
  induction hp with
  | nil => rfl
  | @prim c p h1 h2 hp ih =>
    rw [parse_cons_prim h1 h2 p]
    rw [show leafList (Ast.prim c :: parse p) = 1 + leafList (parse p) from rfl, ih]
    simp [countNonBracket, List.filter_cons, h1, h2]
    omega
  | @brack b p hb hp ihb ihp =>
    rw [parse_brack hb p]
    show leafAst (Ast.loop (parse b)) + leafList (parse p) = _
    rw [show leafAst (Ast.loop (parse b)) = leafList (parse b) from rfl, ihb, ihp]
    simp [countNonBracket, List.filter_cons, List.filter_append]

theorem tmod_ofNat (a b : Nat) : Int.tmod (a : Int) (b : Int) = ((a % b : Nat) : Int) := rfl

theorem srem16_ofLt {a : Nat} (ha : a < 32768) : srem16 a 30000 = a % 30000 := by
  unfold srem16 toSigned16 ofSigned16
  rw [if_pos ha, if_pos (by norm_num : (30000 : Nat) < 32768), tmod_ofNat]
  omega

/-- The `>` lowering computes exactly increment modulo 30000 on
reachable indices. -/
theorem moveRightIndex_eq {i : Nat} (h : i < 30000) :
    moveRightIndex i = (i + 1) % 30000 := by
  unfold moveRightIndex
  have hd : (i + 1) % 65536 = i + 1 := Nat.mod_eq_of_lt (by omega)
  rw [hd, srem16_ofLt (by omega)]
  have hne : toSigned16 ((i + 1) % 30000) ≠ -1 := by
    unfold toSigned16
    rw [if_pos (by omega)]
    omega
  rw [if_neg hne]

/-- The `<` lowering computes exactly decrement modulo 30000 on
reachable indices. -/
theorem moveLeftIndex_eq {i : Nat} (h : i < 30000) :
    moveLeftIndex i = (i + 29999) % 30000 := by
  cases i with
  | zero => decide
  | succ i =>
    unfold moveLeftIndex
    have hd : (i + 1 + 65536 - 1) % 65536 = i := by omega
    rw [hd, srem16_ofLt (by omega)]
    have hi : i % 30000 = i := Nat.mod_eq_of_lt (by omega)
    rw [hi]
    have hne : toSigned16 i ≠ -1 := by
      unfold toSigned16
      rw [if_pos (by omega)]
      omega
    rw [if_neg hne]
    omega

/-- Executions of a program whose nonzero-`ret` count is zero can only
move the recorded return value from unset to 0. -/
theorem exec_retVal (u : Nat) :
    ∀ (f : Nat) (ops : List Op) (s s' : MState),
      (opCountsL ops).2.2 = 0 →
      (s.retVal = none ∨ s.retVal = some 0) →
      exec u f ops s = some s' →
      s'.retVal = none ∨ s'.retVal = some 0 := by
  intro f
  induction f with
  | zero =>
    intro ops s s' h1 h2 h3
    cases ops with
    | nil =>
      simp only [exec, Option.some.injEq] at h3
      rw [← h3]
      exact h2
    | cons o r => simp [exec] at h3
  | succ f ih =>
    intro ops s s' h1 h2 h3
    cases ops with
    | nil =>
      simp only [exec, Option.some.injEq] at h3
      rw [← h3]
      exact h2
    | cons op rest =>
      have hadd : (opCountsL (op :: rest)).2.2 = (opCounts op).2.2 + (opCountsL rest).2.2 := by
        rw [show opCountsL (op :: rest) = opCounts op + opCountsL rest from rfl]
        rfl
      have hcounts : (opCounts op).2.2 = 0 ∧ (opCountsL rest).2.2 = 0 := by
        rw [hadd] at h1
        omega
      cases op with
      | allocaIndex =>
        simp only [exec] at h3
        refine ih rest _ s' hcounts.2 ?_ h3
        exact h2
      | initIndex =>
        simp only [exec] at h3
        refine ih rest _ s' hcounts.2 ?_ h3
        exact h2
      | allocaTape =>
        simp only [exec] at h3
        refine ih rest _ s' hcounts.2 ?_ h3
        exact h2
      | bzeroTape =>
        simp only [exec] at h3
        refine ih rest _ s' hcounts.2 ?_ h3
        exact h2
      | add1 =>
        simp only [exec] at h3
        cases hm : s.tape[s.index]? with
        | none => rw [hm] at h3; simp at h3
        | some v =>
          rw [hm] at h3
          refine ih rest _ s' hcounts.2 ?_ h3
          exact h2
      | sub1 =>
        simp only [exec] at h3
        cases hm : s.tape[s.index]? with
        | none => rw [hm] at h3; simp at h3
        | some v =>
          rw [hm] at h3
          refine ih rest _ s' hcounts.2 ?_ h3
          exact h2
      | right1 =>
        simp only [exec] at h3
        refine ih rest _ s' hcounts.2 ?_ h3
        exact h2
      | left1 =>
        simp only [exec] at h3
        refine ih rest _ s' hcounts.2 ?_ h3
        exact h2
      | dot =>
        simp only [exec] at h3
        cases hm : s.tape[s.index]? with
        | none => rw [hm] at h3; simp at h3
        | some v =>
          rw [hm] at h3
          refine ih rest _ s' hcounts.2 ?_ h3
          exact h2
      | comma =>
        simp only [exec] at h3
        by_cases hidx : s.index < s.tape.length
        · by_cases heof : getcharVal s.input = eofSentinel
          · rw [if_pos hidx, if_pos heof] at h3
            refine ih rest _ s' hcounts.2 ?_ h3
            exact h2
          · rw [if_pos hidx, if_neg heof] at h3
            refine ih rest _ s' hcounts.2 ?_ h3
            exact h2
        · rw [if_neg hidx] at h3
          simp at h3
      | ret v =>
        have hv : v = 0 := by
          have hc := hcounts.1
          by_cases hv0 : v = 0
          · exact hv0
          · rw [show (opCounts (Op.ret v)).2.2 = (if v = 0 then 0 else 1) from rfl,
              if_neg hv0] at hc
            omega
        subst hv
        simp only [exec] at h3
        exact ih rest _ s' hcounts.2 (Or.inr rfl) h3
      | loop body =>
        simp only [exec] at h3
        cases hm : s.tape[s.index]? with
        | none => rw [hm] at h3; simp at h3
        | some v =>
          rw [hm] at h3
          have h3' : (if v = 0 then exec u f rest s
              else
                match exec u f body s with
                | none => none
                | some s2 => exec u f (Op.loop body :: rest) s2) = some s' := h3
          by_cases hv : v = 0
          · rw [if_pos hv] at h3'
            exact ih rest s s' hcounts.2 h2 h3'
          · rw [if_neg hv] at h3'
            cases he : exec u f body s with
            | none =>
              rw [he] at h3'
              have hcontra : (none : Option MState) = some s' := h3'
              simp at hcontra
            | some s2 =>
              rw [he] at h3'
              have hs2 : s2.retVal = none ∨ s2.retVal = some 0 :=
                ih body s s2 hcounts.1 h2 he
              exact ih (Op.loop body :: rest) s2 s' h1 hs2 h3'

/-- C1, counterexample: the source `[` has an unmatched opening loop
marker, yet the parse terminates without any malformed-input condition,
produces the tree `[Loop []]`, and code generation runs, emitting a full
program for it. -/
theorem c1_counterexample :
    parse ['['] = [Ast.loop []] ∧
    bfToIr ['['] = [Op.allocaIndex, Op.initIndex, Op.allocaTape, Op.bzeroTape,
      Op.loop [], Op.ret 0] :=
  ⟨rfl, rfl⟩

/-- C1, amended: for a source consisting of a balanced prefix followed by
an unmatched `[`, the parse terminates normally and produces an AST in
which the unmatched opening marker becomes a loop that is silently closed
at end of input; no error is reported and lowering proceeds on that
tree. -/
theorem c1_unmatched_open_silently_closed (p : List Char) (hp : BalancedSrc p) :
    parse (p ++ ['[']) = parse p ++ [Ast.loop []] := by
  rw [parse_append hp]
  rfl

theorem c1_witness :
    BalancedSrc ['+'] ∧ parse (['+'] ++ ['[']) = parse ['+'] ++ [Ast.loop []] :=
  ⟨BalancedSrc.prim (by decide) (by decide) BalancedSrc.nil,
    c1_unmatched_open_silently_closed ['+']
      (BalancedSrc.prim (by decide) (by decide) BalancedSrc.nil)⟩

/-- C10: for a source made of a balanced prefix, then a stray top-level
closing marker, then anything at all, the parser stops at the stray
marker: the parse equals the parse of the prefix alone, so every
character after the stray `]` is silently discarded and contributes
nothing, and no error is reported. -/
theorem c10_stray_close_discards_rest (p q : List Char) (hp : BalancedSrc p) :
    parse (p ++ ']' :: q) = parse p := by
  rw [parse_append hp]
  have h : parse (']' :: q) = [] := by simp [parse, parseF]
  rw [h]
  simp

theorem c10_witness :
    BalancedSrc ['+'] ∧ parse (['+'] ++ ']' :: ['-', 'a', '[']) = parse ['+'] :=
  ⟨BalancedSrc.prim (by decide) (by decide) BalancedSrc.nil,
    c10_stray_close_discards_rest ['+'] ['-', 'a', '[']
      (BalancedSrc.prim (by decide) (by decide) BalancedSrc.nil)⟩

/-- C7, counterexample: `a` is a source with balanced loop markers and
zero primitive characters, yet the parser produces a tree with one leaf:
the parser appends every non-bracket character, not only the six
primitive ones. -/
theorem c7_counterexample :
    BalancedSrc ['a'] ∧ leafList (parse ['a']) = 1 ∧ countPrimChars ['a'] = 0 :=
  ⟨BalancedSrc.prim (by decide) (by decide) BalancedSrc.nil, rfl, rfl⟩

/-- C7, amended: the parser appends a node for every non-bracket
character, the six primitives and all others alike, so on balanced
sources the total leaf count equals the number of non-bracket characters
of the source; characters other than the six primitives are instead
dropped by the code generator, which emits nothing for them. -/
theorem c7_leafcount_nonbracket (p : List Char) (hp : BalancedSrc p) :
    leafList (parse p) = countNonBracket p ∧
    (∀ c : Char, c ≠ '+' → c ≠ '-' → c ≠ '>' → c ≠ '<' → c ≠ '.' → c ≠ ',' →
      compileItem (Ast.prim c) = []) := by
  refine ⟨leafList_parse hp, ?_⟩
  intro c h1 h2 h3 h4 h5 h6
  simp [compileItem, h1, h2, h3, h4, h5, h6]

theorem c7_witness :
    BalancedSrc ['a'] ∧
      (leafList (parse ['a']) = countNonBracket ['a'] ∧
        (∀ c : Char, c ≠ '+' → c ≠ '-' → c ≠ '>' → c ≠ '<' → c ≠ '.' → c ≠ ',' →
          compileItem (Ast.prim c) = [])) :=
  ⟨BalancedSrc.prim (by decide) (by decide) BalancedSrc.nil,
    c7_leafcount_nonbracket ['a']
      (BalancedSrc.prim (by decide) (by decide) BalancedSrc.nil)⟩

/-- C2: a Loop node lowers to the loop construct over its lowered body,
and the construct's control flow always enters through the test: with
the tested cell zero the body is executed zero times (the state passes
through unchanged to the continuation), and with the cell nonzero the
body runs once and control returns to the very same construct, so the
test is re-evaluated after every iteration. -/
theorem c2_loop_pretest (l : List Ast) (u f : Nat) (body rest : List Op)
    (s : MState) (v : Nat) (h : s.tape[s.index]? = some v) :
    compileItem (Ast.loop l) = [Op.loop (compileList l)] ∧
    (v = 0 → exec u (f + 1) (Op.loop body :: rest) s = exec u f rest s) ∧
    (v ≠ 0 → exec u (f + 1) (Op.loop body :: rest) s =
      (exec u f body s).bind (fun s2 => exec u f (Op.loop body :: rest) s2)) := by
  refine ⟨rfl, ?_, ?_⟩
  · intro hv
    simp [exec, h, hv]
  · intro hv
    have e : exec u (f + 1) (Op.loop body :: rest) s =
        (match exec u f body s with
          | none => none
          | some s2 => exec u f (Op.loop body :: rest) s2) := by
      simp [exec, h, hv]
    rw [e]
    cases he : exec u f body s <;> simp

theorem c2_witness :
    (⟨[0], 0, [], [], none⟩ : MState).tape[(⟨[0], 0, [], [], none⟩ : MState).index]? =
        some 0 ∧
      exec 0 1 [Op.loop []] ⟨[0], 0, [], [], none⟩ = exec 0 0 [] ⟨[0], 0, [], [], none⟩ :=
  ⟨rfl, (c2_loop_pretest [] 0 0 [] [] ⟨[0], 0, [], [], none⟩ 0 rfl).2.1 rfl⟩

/-- C3: the `+` and `-` lowerings load the current cell, apply the
8-bit overflow-checked add/subtract keeping only the wrapped result,
and store value ± 1 modulo 256 back; no overflow error exists (the step
succeeds for every cell value at every in-range address), incrementing
255 wraps to 0 and decrementing 0 wraps to 255. -/
theorem c3_cell_wraparound (u f : Nat) (s : MState) (v : Nat)
    (h : s.tape[s.index]? = some v) :
    exec u (f + 1) [Op.add1] s =
        some { s with tape := s.tape.set s.index ((v + 1) % 256) } ∧
    exec u (f + 1) [Op.sub1] s =
        some { s with tape := s.tape.set s.index ((v + 255) % 256) } ∧
    (sadd_with_overflow8 255 1).1 = 0 ∧
    (ssub_with_overflow8 0 1).1 = 255 ∧
    compileItem (Ast.prim '+') = [Op.add1] ∧
    compileItem (Ast.prim '-') = [Op.sub1] := by
  refine ⟨?_, ?_, rfl, rfl, rfl, rfl⟩
  · simp [exec, h, sadd_with_overflow8]
  · have harith : (v + 256 - 1 % 256) % 256 = (v + 255) % 256 := by omega
    simp [exec, h, ssub_with_overflow8, harith]

theorem c3_witness :
    (⟨[255], 0, [], [], none⟩ : MState).tape[(⟨[255], 0, [], [], none⟩ : MState).index]? =
        some 255 ∧
      exec 0 1 [Op.add1] ⟨[255], 0, [], [], none⟩ =
        some { (⟨[255], 0, [], [], none⟩ : MState) with
          tape := (⟨[255], 0, [], [], none⟩ : MState).tape.set
            (⟨[255], 0, [], [], none⟩ : MState).index ((255 + 1) % 256) } :=
  ⟨rfl, (c3_cell_wraparound 0 0 ⟨[255], 0, [], [], none⟩ 255 rfl).1⟩

/-- C4: on every reachable index (0 ≤ i < 30000) the `>` and `<`
lowerings store index ± 1 reduced modulo 30000, always succeeding (no
out-of-bounds error): right from 29999 gives 0 and left from 0 gives
29999. -/
theorem c4_pointer_wraparound (u f : Nat) (s : MState) (h : s.index < 30000) :
    exec u (f + 1) [Op.right1] s = some { s with index := (s.index + 1) % 30000 } ∧
    exec u (f + 1) [Op.left1] s = some { s with index := (s.index + 29999) % 30000 } ∧
    moveRightIndex 29999 = 0 ∧
    moveLeftIndex 0 = 29999 ∧
    compileItem (Ast.prim '>') = [Op.right1] ∧
    compileItem (Ast.prim '<') = [Op.left1] := by
  refine ⟨?_, ?_, by decide, by decide, rfl, rfl⟩
  · simp [exec, moveRightIndex_eq h]
  · simp [exec, moveLeftIndex_eq h]

theorem c4_witness :
    ((⟨[], 29999, [], [], none⟩ : MState).index < 30000) ∧
      exec 0 1 [Op.right1] ⟨[], 29999, [], [], none⟩ =
        some { (⟨[], 29999, [], [], none⟩ : MState) with index := (29999 + 1) % 30000 } :=
  ⟨by decide, (c4_pointer_wraparound 0 0 ⟨[], 29999, [], [], none⟩ (by decide)).1⟩

/-- C5: for every starting index below 30000, the decrement-then-`srem`
sequence of the `<` lowering yields either a value already in range
(read nonnegative and below 30000) or the value reading exactly -1, and
it reads -1 precisely for starting index 0; replacing only that -1 by
29999 therefore gives exactly decrement modulo 30000, so the correction
is necessary and sufficient. -/
theorem c5_srem_correction (i : Nat) (h : i < 30000) :
    (toSigned16 (srem16 ((i + 65536 - 1) % 65536) 30000) = -1 ∨
      (0 ≤ toSigned16 (srem16 ((i + 65536 - 1) % 65536) 30000) ∧
        toSigned16 (srem16 ((i + 65536 - 1) % 65536) 30000) < 30000)) ∧
    (toSigned16 (srem16 ((i + 65536 - 1) % 65536) 30000) = -1 ↔ i = 0) ∧
    moveLeftIndex i = (i + 29999) % 30000 := by
  cases i with
  | zero => exact ⟨Or.inl (by decide), by decide, by decide⟩
  | succ i =>
    have hd : (i + 1 + 65536 - 1) % 65536 = i := by omega
    have hs : srem16 ((i + 1 + 65536 - 1) % 65536) 30000 = i % 30000 := by
      rw [hd]
      exact srem16_ofLt (by omega)
    have hi : i % 30000 = i := Nat.mod_eq_of_lt (by omega)
    have ht : toSigned16 i = (i : Int) := by
      unfold toSigned16
      rw [if_pos (by omega)]
    refine ⟨Or.inr ?_, ?_, moveLeftIndex_eq (by omega)⟩
    · rw [hs, hi, ht]
      constructor
      · omega
      · omega
    · rw [hs, hi, ht]
      constructor
      · intro hx
        omega
      · intro hx
        omega

theorem c5_witness :
    (0 : Nat) < 30000 ∧
      ((toSigned16 (srem16 ((0 + 65536 - 1) % 65536) 30000) = -1 ∨
        (0 ≤ toSigned16 (srem16 ((0 + 65536 - 1) % 65536) 30000) ∧
          toSigned16 (srem16 ((0 + 65536 - 1) % 65536) 30000) < 30000)) ∧
      (toSigned16 (srem16 ((0 + 65536 - 1) % 65536) 30000) = -1 ↔ (0 : Nat) = 0) ∧
      moveLeftIndex 0 = (0 + 29999) % 30000) :=
  ⟨by decide, c5_srem_correction 0 (by decide)⟩

/-- C6: the `,` lowering calls the input primitive and branches on a
comparison with the end-of-input sentinel: at end of input the current
cell is set to 0 whatever it held before; otherwise the returned value
is truncated to one byte and stored.  The two arms store different
values (truncating the sentinel itself would store 255, not 0), so the
lowering is a genuine two-way conditional rejoining afterwards, not one
unconditional store. -/
theorem c6_input_eof (u f : Nat) (s : MState) (b : Nat) (rest : List Nat)
    (hidx : s.index < s.tape.length) :
    (s.input = [] →
      exec u (f + 1) [Op.comma] s = some { s with tape := s.tape.set s.index 0 }) ∧
    (s.input = b :: rest → b < 256 →
      exec u (f + 1) [Op.comma] s =
        some { s with input := rest, tape := s.tape.set s.index (b % 256) }) ∧
    eofSentinel % 256 = 255 ∧
    (255 : Nat) ≠ 0 ∧
    compileItem (Ast.prim ',') = [Op.comma] := by
  refine ⟨?_, ?_, rfl, by decide, rfl⟩
  · intro hin
    simp [exec, hidx, getcharVal, hin, eofSentinel]
  · intro hin hb
    have h1 : getcharVal s.input = b := by
      simp [getcharVal, hin]
      omega
    have h2 : getcharVal s.input ≠ eofSentinel := by
      rw [h1]
      unfold eofSentinel
      omega
    rw [hin] at h1 h2
    have h3 : b ≠ eofSentinel := by
      unfold eofSentinel
      omega
    simp [exec, hidx, h2, hin, h1, h3]

theorem c6_witness :
    ((⟨[7], 0, [], [], none⟩ : MState).index < (⟨[7], 0, [], [], none⟩ : MState).tape.length) ∧
      ((⟨[7], 0, [], [], none⟩ : MState).input = [] ∧
        exec 0 1 [Op.comma] ⟨[7], 0, [], [], none⟩ =
          some { (⟨[7], 0, [], [], none⟩ : MState) with
            tape := (⟨[7], 0, [], [], none⟩ : MState).tape.set
              (⟨[7], 0, [], [], none⟩ : MState).index 0 }) :=
  ⟨by decide, rfl, (c6_input_eof 0 0 ⟨[7], 0, [], [], none⟩ 0 [] (by decide)).1 rfl⟩

/-- C8: the only `ret` the code generator ever emits is the final
`ret i32 0` after all top-level nodes, so every terminating run of a
generated program exits with status 0; the empty source lowers to just
the setup prologue and the return, and its run immediately succeeds with
status 0 and no output. -/
theorem c8_returns_zero :
    (∀ (u fuel : Nat) (bf : List Char) (inp : List Nat) (code : Nat) (out : List Nat),
      runBf u fuel bf inp = some (code, out) → code = 0) ∧
    (∀ (u : Nat) (inp : List Nat),
      bfToIr [] = [Op.allocaIndex, Op.initIndex, Op.allocaTape, Op.bzeroTape, Op.ret 0] ∧
      runBf u 6 [] inp = some (0, [])) := by
  constructor
  · intro u fuel bf inp code out h
    unfold runBf at h
    cases hex : exec u fuel (bfToIr bf) (startState inp) with
    | none => rw [hex] at h; simp at h
    | some st =>
      rw [hex] at h
      have hct : (opCountsL (bfToIr bf)).2.2 = 0 := by
        unfold bfToIr
        rw [opCountsL_append, opCountsL_append, opCounts_compileList (parse bf)]
        rfl
      have hretok := exec_retVal u fuel (bfToIr bf) (startState inp) st hct (Or.inl rfl) hex
      have h' : (match st.retVal with
          | none => none
          | some c0 => some (c0, st.output)) = some (code, out) := h
      cases hrv : st.retVal with
      | none => rw [hrv] at h'; simp at h'
      | some c0 =>
        rw [hrv] at h'
        have h'' : some (c0, st.output) = some (code, out) := h'
        simp only [Option.some.injEq, Prod.mk.injEq] at h''
        rcases hretok with h0 | h0
        · rw [hrv] at h0
          cases h0
        · rw [hrv] at h0
          simp only [Option.some.injEq] at h0
          omega
  · intro u inp
    exact ⟨rfl, rfl⟩

theorem c8_witness :
    (0 : Nat) = 0 ∧ runBf 3 6 [] [9] = some (0, []) :=
  ⟨c8_returns_zero.1 3 6 [] [9] 0 [] (c8_returns_zero.2 3 [9]).2,
    (c8_returns_zero.2 3 [9]).2⟩

/-- C9: the generated program allocates the 16-bit index register and
the 30,000-cell tape exactly once each, both in the setup prologue
before any lowered node, and lowering emits no further allocation (the
tail after the prologue has allocation count zero); executing the
prologue from any state leaves the tape as 30,000 zero-filled cells and
the index register 0. -/
theorem c9_single_allocations (bf : List Char) :
    (opCountsL (bfToIr bf)).1 = 1 ∧
    (opCountsL (bfToIr bf)).2.1 = 1 ∧
    (∃ rest, bfToIr bf =
        Op.allocaIndex :: Op.initIndex :: Op.allocaTape :: Op.bzeroTape :: rest ∧
      (opCountsL rest).1 = 0 ∧ (opCountsL rest).2.1 = 0) ∧
    (∀ (u f : Nat) (s : MState),
      exec u (f + 4) [Op.allocaIndex, Op.initIndex, Op.allocaTape, Op.bzeroTape] s =
        some { s with tape := List.replicate 30000 0, index := 0 }) := by
  have hc := opCounts_compileList (parse bf)
  have hsplit : opCountsL (bfToIr bf) =
      opCountsL [Op.allocaIndex, Op.initIndex, Op.allocaTape, Op.bzeroTape] +
        (opCountsL (compileList (parse bf)) + opCountsL [Op.ret 0]) := by
    unfold bfToIr
    rw [opCountsL_append, opCountsL_append, add_assoc]
  refine ⟨?_, ?_, ⟨compileList (parse bf) ++ [Op.ret 0], ?_, ?_, ?_⟩, ?_⟩
  · rw [hsplit, hc]
    rfl
  · rw [hsplit, hc]
    rfl
  · unfold bfToIr
    rfl
  · rw [opCountsL_append, hc]
    rfl
  · rw [opCountsL_append, hc]
    rfl
  · intro u f s
    simp only [exec]
